import Mathlib

/-!
# Verification of the Minimum Price Markov Game environment

A shallow embedding of the `mpmg` package: the market-clearing engine,
reward engine, action validator, rolling market state and the episode
state machine of the environment, together with a model of the
module-level execution of `setup.py` (the only code file present in the
repository snapshot).  Prices, costs, demand and rewards are modelled as
exact rationals.
-/

namespace MPMG

/-- A raw action submitted by an agent: either a numeric price or one of
the non-numeric inputs the validator must reject.
Modelled from the spec: the `ActionValidator` component is not present in
the repository snapshot; its input domain is taken from §4.2 ("any numeric
action"; "non-numeric or NaN input is a fatal error"). -/
inductive RawAction where
  | num (q : ℚ)
  | nan
  | posInf
  | negInf
  | nonNumeric
deriving DecidableEq

/-- The fatal error taxonomy of spec §7. -/
inductive StepError where
  | invalidAction (agent : Nat)
  | incompleteActionSet (agent : Nat)
  | invalidDemand
  | invalidEpisodeState
deriving DecidableEq

/-- Modelled from the spec: `ActionValidator.validate` under the `clip`
policy (§4.2, §7): a numeric action is clipped into `[pmin, pmax]`;
NaN/infinite/non-numeric input is a fatal `InvalidActionError`. -/
def validate (agent : Nat) (pmin pmax : ℚ) : RawAction → Except StepError ℚ
  | .num q => .ok (max pmin (min q pmax))
  | _ => .error (.invalidAction agent)

/-- Minimum of a list of rationals (0 on the empty list, which the
clearing engine never passes). -/
def listMin : List ℚ → ℚ
  | [] => 0
  | p :: ps => ps.foldl min p

/-- The outcome of clearing one round (spec §3 `ClearingOutcome`). -/
structure ClearingOutcome where
  clearingPrice : ℚ
  winners : List Nat
  alloc : List ℚ
  demand : ℚ
deriving DecidableEq

/-- Indices of the agents whose submitted price equals the minimum. -/
def winnersOf (ps : List ℚ) : List Nat :=
  (List.range ps.length).filter (fun i => decide (ps.getD i 0 = listMin ps))

/-- Modelled from the spec: `ClearingEngine.clear` (§4.3) under the
default `winner-take-all-equal-split` rule: winners are the agents at the
minimum price, each winner receives `D` divided by the number of winners,
non-winners receive 0. -/
def clear (ps : List ℚ) (D : ℚ) : ClearingOutcome :=
  let m := listMin ps
  let ws := winnersOf ps
  { clearingPrice := m
    winners := ws
    alloc := (List.range ps.length).map
      (fun i => if ps.getD i 0 = m then D / (ws.length : ℚ) else 0)
    demand := D }

/-- Modelled from the spec: `RewardEngine.reward` (§4.4): a winner earns
`(clearing_price - c_i) * allocated_quantity_i`, a non-winner earns 0. -/
def rewardOf (oc : ClearingOutcome) (c : ℚ) (agent : Nat) : ℚ :=
  if agent ∈ oc.winners then (oc.clearingPrice - c) * oc.alloc.getD agent 0 else 0

theorem foldl_min_le_init (l : List ℚ) : ∀ a : ℚ, l.foldl min a ≤ a := by
  induction l with
  | nil => intro a; exact le_refl a
  | cons b l ih =>
    intro a
    calc (b :: l).foldl min a = l.foldl min (min a b) := rfl
    _ ≤ min a b := ih (min a b)
    _ ≤ a := min_le_left a b

theorem foldl_min_le_mem (l : List ℚ) : ∀ a x : ℚ, x ∈ l → l.foldl min a ≤ x := by
  induction l with
  | nil => intro a x hx; cases hx
  | cons b l ih =>
    intro a x hx
    rcases List.mem_cons.mp hx with h | h
    · subst h
      calc (x :: l).foldl min a = l.foldl min (min a x) := rfl
      _ ≤ min a x := foldl_min_le_init l (min a x)
      _ ≤ x := min_le_right a x
    · exact ih (min a b) x h

theorem foldl_min_mem (l : List ℚ) : ∀ a : ℚ, l.foldl min a = a ∨ l.foldl min a ∈ l := by
  induction l with
  | nil => intro a; exact Or.inl rfl
  | cons b l ih =>
    intro a
    rcases ih (min a b) with h | h
    · rcases min_choice a b with hm | hm
      · exact Or.inl (by rw [List.foldl_cons, h, hm])
      · exact Or.inr (by rw [List.foldl_cons, h, hm]; exact List.mem_cons_self b l)
    · exact Or.inr (List.mem_cons_of_mem b h)

theorem listMin_mem {ps : List ℚ} (h : ps ≠ []) : listMin ps ∈ ps := by
  cases ps with
  | nil => exact absurd rfl h
  | cons p l =>
    rcases foldl_min_mem l p with h1 | h1
    · rw [listMin, h1]; exact List.mem_cons_self p l
    · rw [listMin]; exact List.mem_cons_of_mem p h1

theorem listMin_le {ps : List ℚ} {x : ℚ} (hx : x ∈ ps) : listMin ps ≤ x := by
  cases ps with
  | nil => cases hx
  | cons p l =>
    rcases List.mem_cons.mp hx with h | h
    · subst h; exact foldl_min_le_init l x
    · exact foldl_min_le_mem l p x h

theorem mem_winnersOf {ps : List ℚ} {i : Nat} :
    i ∈ winnersOf ps ↔ i < ps.length ∧ ps.getD i 0 = listMin ps := by
  unfold winnersOf
  rw [List.mem_filter, List.mem_range]
  simp [decide_eq_true_iff]

theorem winnersOf_ne_nil {ps : List ℚ} (h : ps ≠ []) : winnersOf ps ≠ [] := by
  obtain ⟨i, hi, hget⟩ := List.getElem_of_mem (listMin_mem h)
  have hmem : i ∈ winnersOf ps := by
    rw [mem_winnersOf]
    exact ⟨hi, by rw [List.getD_eq_getElem ps 0 hi, hget]⟩
  intro hnil
  rw [hnil] at hmem
  cases hmem

theorem sum_map_ite (c : ℚ) (P : Nat → Prop) [DecidablePred P] :
    ∀ l : List Nat,
      (l.map fun i => if P i then c else 0).sum
        = (((l.filter fun i => decide (P i)).length : ℚ)) * c := by
  intro l
  induction l with
  | nil => simp
  | cons a l ih =>
    by_cases hp : P a
    · simp [hp, List.filter_cons, ih, add_mul]
      ring
    · simp [hp, List.filter_cons, ih]

/-- One committed round, as stored in the rolling history (spec §3:
`(prices, allocations, demand)` tuples, plus the clearing price the
observations expose). -/
structure RoundRecord where
  prices : List ℚ
  alloc : List ℚ
  demand : ℚ
  clearingPrice : ℚ
deriving DecidableEq

/-- The episode state machine of spec §4.5. -/
inductive Phase where
  | uninitialized
  | ready
  | running
  | done
deriving DecidableEq

/-- Modelled from the spec: the configuration recognized by `reset`
(§6).  Cost and demand distributions are kept deterministic-parametric:
fixed per-agent costs, and demand drawn as `demandBase` plus the seeded
generator's state reduced modulo `demandSpread + 1`. -/
structure Config where
  N : Nat
  T : Nat
  windowSize : Nat
  pmin : ℚ
  pmax : ℚ
  costs : List ℚ
  demandBase : ℚ
  demandSpread : Nat
deriving DecidableEq

/-- Modelled from the spec: the explicitly seeded pseudorandom generator
owned by the Environment (§5, §9): a linear congruential step. -/
def rngNext (s : Nat) : Nat := (s * 1103515245 + 12345) % 2147483648

/-- Modelled from the spec: a demand sample drawn from the current
generator state (the `demand_distribution` of §6). -/
def drawDemand (cfg : Config) (s : Nat) : ℚ :=
  cfg.demandBase + ((s % (cfg.demandSpread + 1) : Nat) : ℚ)

/-- The mutable Markov state owned by the Environment (spec §3). -/
structure MarketState where
  history : List RoundRecord
  t : Nat
deriving DecidableEq

/-- The whole environment: configuration, episode phase, market state and
the owned generator state. -/
structure Env where
  config : Config
  phase : Phase
  market : MarketState
  rng : Nat
deriving DecidableEq

/-- A per-agent observation (spec §4.1): a projection of the shared
rolling history — past clearing prices, past own allocations — plus the
agent's own cost. -/
structure Observation where
  pastClearingPrices : List ℚ
  pastOwnAlloc : List ℚ
  ownCost : ℚ
deriving DecidableEq

/-- Modelled from the spec: `StateModel.observe` (§4.1), a pure read of
the market state. -/
def observe (cfg : Config) (ms : MarketState) (agent : Nat) : Observation :=
  { pastClearingPrices := ms.history.map (fun r => r.clearingPrice)
    pastOwnAlloc := ms.history.map (fun r => r.alloc.getD agent 0)
    ownCost := cfg.costs.getD agent 0 }

/-- The observations of all `N` agents. -/
def observationsOf (env : Env) : List Observation :=
  (List.range env.config.N).map (observe env.config env.market)

/-- A fresh, not-yet-reset environment (phase `UNINITIALIZED`). -/
def Env.init (cfg : Config) : Env :=
  { config := cfg, phase := .uninitialized, market := { history := [], t := 0 }, rng := 0 }

/-- Modelled from the spec: `reset(seed)` (§4.5): reinitializes the
market state and round counter, seeds the generator, moves to `READY`,
and returns the initial observations. -/
def Env.reset (env : Env) (seed : Nat) : Env × List Observation :=
  let e : Env :=
    { config := env.config
      phase := .ready
      market := { history := [], t := 0 }
      rng := seed }
  (e, observationsOf e)

/-- Append a round to the rolling history, evicting the oldest entries
(from the front) so that at most `w` rounds are kept. -/
def pushWindow (w : Nat) (h : List RoundRecord) (o : RoundRecord) : List RoundRecord :=
  (h ++ [o]).drop (h.length + 1 - w)

/-- Validate and collect the actions of the given agent ids in order:
a missing action is an `IncompleteActionSetError`, a non-numeric one an
`InvalidActionError`. -/
def validateAll (cfg : Config) (acts : Nat → Option RawAction) :
    List Nat → Except StepError (List ℚ)
  | [] => .ok []
  | i :: rest =>
    match acts i with
    | none => .error (.incompleteActionSet i)
    | some a =>
      match validate i cfg.pmin cfg.pmax a with
      | .error e => .error e
      | .ok p =>
        match validateAll cfg acts rest with
        | .error e => .error e
        | .ok ps => .ok (p :: ps)

/-- What a successful `step` returns (spec §6): per-agent observations,
per-agent rewards, the done flag, and the cleared round as info. -/
structure StepResult where
  observations : List Observation
  rewards : List ℚ
  done : Bool
  info : RoundRecord
deriving DecidableEq

/-- The committed part of a successful `step`: clear the market at the
validated prices and the drawn demand, compute rewards, append the round
to the rolling history (evicting the oldest entry when the window is
full), advance `t` and the generator, reaching `DONE` once `t = T`. -/
def Env.commit (env : Env) (ps : List ℚ) (D : ℚ) : Except StepError StepResult × Env :=
  let oc := clear ps D
  let rewards := (List.range env.config.N).map
    (fun i => rewardOf oc (env.config.costs.getD i 0) i)
  let rec0 : RoundRecord :=
    { prices := ps, alloc := oc.alloc, demand := D, clearingPrice := oc.clearingPrice }
  let t' := env.market.t + 1
  let phase' : Phase := if t' = env.config.T then .done else .running
  let env' : Env :=
    { config := env.config
      phase := phase'
      market := { history := pushWindow env.config.windowSize env.market.history rec0
                  t := t' }
      rng := rngNext env.rng }
  (.ok { observations := observationsOf env'
         rewards := rewards
         done := phase' = .done
         info := rec0 }, env')

/-- Modelled from the spec: `step(actions)` (§4.5, §7).  Requires phase
`READY` or `RUNNING`; validates all actions, draws demand from the owned
generator, then commits the round.  Every fatal condition returns the
environment unchanged (atomicity, §7). -/
def Env.step (env : Env) (acts : Nat → Option RawAction) :
    Except StepError StepResult × Env :=
  if env.phase = .ready ∨ env.phase = .running then
    match validateAll env.config acts (List.range env.config.N) with
    | .error e => (.error e, env)
    | .ok ps =>
      if drawDemand env.config (rngNext env.rng) ≤ 0 then (.error .invalidDemand, env)
      else env.commit ps (drawDemand env.config (rngNext env.rng))
  else (.error .invalidEpisodeState, env)

/-- Run `k` consecutive `step` calls with the same action mapping,
returning the final environment when every call succeeded. -/
def stepsOk (acts : Nat → Option RawAction) : Nat → Env → Option Env
  | 0, env => some env
  | k + 1, env =>
    match env.step acts with
    | (.ok _, env') => stepsOk acts k env'
    | (.error _, _) => none

/-- Step through a whole action sequence, collecting each call's result. -/
def runFrom : Env → List (Nat → Option RawAction) → List (Except StepError StepResult)
  | _, [] => []
  | env, a :: rest =>
    let r := env.step a
    r.1 :: runFrom r.2 rest

/-- A complete run: build the environment, reset it with the seed, then
step through the action sequence; returns the initial observations and
every step's result (observations, rewards, done flag and outcome). -/
def run (cfg : Config) (seed : Nat) (actSeq : List (Nat → Option RawAction)) :
    List Observation × List (Except StepError StepResult) :=
  let r := (Env.init cfg).reset seed
  (r.2, runFrom r.1 actSeq)

/-- The observable result of executing `src/setup.py` at module level. -/
structure SetupArgs where
  name : String
  version : String
  longDescription : String
deriving DecidableEq

/-- Executing `setup.py` either completes a `setup(...)` call or dies
with a `FileNotFoundError` for a named file before `setup` runs. -/
inductive SetupRun where
  | completed (args : SetupArgs)
  | fileNotFoundError (filename : String)
deriving DecidableEq

/-- Shallow embedding of the module-level execution of `src/setup.py`:
the `long_description` argument is `open('README.md').read()`, evaluated
while building the argument list, hence before `setup` is invoked.
`files` maps the names of the files present in the working directory to
their contents; a missing `README.md` aborts execution with
`FileNotFoundError` and `setup` is never called. -/
def runSetupPy (files : List (String × String)) : SetupRun :=
  match files.lookup "README.md" with
  | none => .fileNotFoundError "README.md"
  | some contents =>
      .completed { name := "mpmg", version := "0.1.0", longDescription := contents }

theorem clear_clearingPrice (ps : List ℚ) (D : ℚ) :
    (clear ps D).clearingPrice = listMin ps := rfl

theorem clear_winners (ps : List ℚ) (D : ℚ) :
    (clear ps D).winners = winnersOf ps := rfl

theorem clear_alloc (ps : List ℚ) (D : ℚ) :
    (clear ps D).alloc = (List.range ps.length).map
      (fun i => if ps.getD i 0 = listMin ps then D / ((winnersOf ps).length : ℚ) else 0) := rfl

theorem clear_alloc_length (ps : List ℚ) (D : ℚ) :
    (clear ps D).alloc.length = ps.length := by
  rw [clear_alloc, List.length_map, List.length_range]

theorem clear_alloc_getD (ps : List ℚ) (D : ℚ) {i : Nat} (hi : i < ps.length) :
    (clear ps D).alloc.getD i 0 =
      if ps.getD i 0 = listMin ps then D / ((winnersOf ps).length : ℚ) else 0 := by
  rw [clear_alloc]
  rw [List.getD_eq_getElem _ 0 (by simp [hi])]
  simp

theorem winnersOf_length_pos {ps : List ℚ} (h : ps ≠ []) :
    0 < (winnersOf ps).length :=
  List.length_pos.mpr (winnersOf_ne_nil h)

theorem clear_alloc_sum (ps : List ℚ) (D : ℚ) (hps : ps ≠ []) :
    (clear ps D).alloc.sum = D := by
  rw [clear_alloc]
  rw [sum_map_ite (D / ((winnersOf ps).length : ℚ)) (fun i => ps.getD i 0 = listMin ps)
    (List.range ps.length)]
  have hk : (((winnersOf ps).length : ℚ)) ≠ 0 := by
    exact_mod_cast Nat.pos_iff_ne_zero.mp (winnersOf_length_pos hps)
  rw [show (List.range ps.length).filter (fun i => decide (ps.getD i 0 = listMin ps))
        = winnersOf ps from rfl]
  field_simp

/-- C1: for every valid (nonempty) price vector and demand `D > 0`, the
clearing engine allocates quantity only to winners, splits `D` equally
among the winners, and the allocations sum to exactly `D`; when all
prices are equal every agent wins and receives `D / N`. -/
theorem c1_allocation_equal_split (ps : List ℚ) (D : ℚ) (hps : ps ≠ []) (_hD : 0 < D) :
    (∀ i, i ∉ (clear ps D).winners → (clear ps D).alloc.getD i 0 = 0) ∧
    (∀ i, i ∈ (clear ps D).winners →
        (clear ps D).alloc.getD i 0 = D / (((clear ps D).winners.length : ℚ))) ∧
    (clear ps D).alloc.sum = D ∧
    ((∀ p, p ∈ ps → p = ps.headD 0) →
      (clear ps D).winners = List.range ps.length ∧
      ∀ i, i < ps.length → (clear ps D).alloc.getD i 0 = D / ((ps.length : ℚ))) := by
  refine ⟨?_, ?_, clear_alloc_sum ps D hps, ?_⟩
  · intro i hi
    by_cases hlen : i < ps.length
    · rw [clear_alloc_getD ps D hlen]
      rw [clear_winners, mem_winnersOf] at hi
      push_neg at hi
      rw [if_neg (hi hlen)]
    · exact List.getD_eq_default _ _ (by rw [clear_alloc_length]; omega)
  · intro i hi
    rw [clear_winners, mem_winnersOf] at hi
    rw [clear_alloc_getD ps D hi.1, if_pos hi.2, clear_winners]
  · intro heq
    have hm : listMin ps = ps.headD 0 := heq _ (listMin_mem hps)
    have hall : ∀ i, i < ps.length → ps.getD i 0 = listMin ps := by
      intro i hilen
      rw [List.getD_eq_getElem _ 0 hilen, hm]
      exact heq _ (List.getElem_mem hilen)
    have hw : winnersOf ps = List.range ps.length := by
      unfold winnersOf
      apply List.filter_eq_self.mpr
      intro a ha
      rw [List.mem_range] at ha
      simp only [decide_eq_true_eq]
      exact hall a ha
    refine ⟨by rw [clear_winners, hw], ?_⟩
    intro i hilen
    rw [clear_alloc_getD ps D hilen, if_pos (hall i hilen), hw, List.length_range]

theorem c1_witness :
    (([(5 : ℚ), 5] : List ℚ) ≠ [] ∧ (0 : ℚ) < 10) ∧
    ((∀ i, i ∉ (clear [(5 : ℚ), 5] 10).winners →
        (clear [(5 : ℚ), 5] 10).alloc.getD i 0 = 0) ∧
     (∀ i, i ∈ (clear [(5 : ℚ), 5] 10).winners →
        (clear [(5 : ℚ), 5] 10).alloc.getD i 0
          = 10 / (((clear [(5 : ℚ), 5] 10).winners.length : ℚ))) ∧
     (clear [(5 : ℚ), 5] 10).alloc.sum = 10 ∧
     ((∀ p, p ∈ ([(5 : ℚ), 5] : List ℚ) → p = ([(5 : ℚ), 5] : List ℚ).headD 0) →
        (clear [(5 : ℚ), 5] 10).winners = List.range 2 ∧
        ∀ i, i < 2 → (clear [(5 : ℚ), 5] 10).alloc.getD i 0 = 10 / ((2 : ℚ)))) :=
  ⟨⟨by decide, by decide⟩, c1_allocation_equal_split [5, 5] 10 (by decide) (by decide)⟩

/-- C2: for every round over a nonempty price vector, the clearing price
is the minimum submitted price (it belongs to the vector and bounds it
below), the winners are exactly the agents whose price equals it (exact
equality), and a sole winner is allocated all of `D`. -/
theorem c2_min_price_winners (ps : List ℚ) (D : ℚ) (hps : ps ≠ []) :
    ((clear ps D).clearingPrice ∈ ps ∧ ∀ x, x ∈ ps → (clear ps D).clearingPrice ≤ x) ∧
    (∀ i, i ∈ (clear ps D).winners ↔
        i < ps.length ∧ ps.getD i 0 = (clear ps D).clearingPrice) ∧
    (∀ i, (clear ps D).winners = [i] → (clear ps D).alloc.getD i 0 = D) := by
  refine ⟨⟨by rw [clear_clearingPrice]; exact listMin_mem hps,
      fun x hx => by rw [clear_clearingPrice]; exact listMin_le hx⟩, ?_, ?_⟩
  · intro i
    rw [clear_winners, clear_clearingPrice]
    exact mem_winnersOf
  · intro i hw
    rw [clear_winners] at hw
    have hi : i ∈ winnersOf ps := by rw [hw]; exact List.mem_singleton_self i
    rw [mem_winnersOf] at hi
    rw [clear_alloc_getD ps D hi.1, if_pos hi.2, hw]
    norm_num

theorem c2_witness :
    ([(4 : ℚ), 6, 6] : List ℚ) ≠ [] ∧
    (((clear [(4 : ℚ), 6, 6] 9).clearingPrice ∈ ([(4 : ℚ), 6, 6] : List ℚ) ∧
        ∀ x, x ∈ ([(4 : ℚ), 6, 6] : List ℚ) → (clear [(4 : ℚ), 6, 6] 9).clearingPrice ≤ x) ∧
     (∀ i, i ∈ (clear [(4 : ℚ), 6, 6] 9).winners ↔
        i < 3 ∧ ([(4 : ℚ), 6, 6] : List ℚ).getD i 0 = (clear [(4 : ℚ), 6, 6] 9).clearingPrice) ∧
     (∀ i, (clear [(4 : ℚ), 6, 6] 9).winners = [i] →
        (clear [(4 : ℚ), 6, 6] 9).alloc.getD i 0 = 9)) :=
  ⟨by decide, c2_min_price_winners [4, 6, 6] 9 (by decide)⟩

/-- C3: the reward engine pays a winner `(clearing_price - c_i) *
allocated_quantity_i` using that agent's own cost and pays a non-winner
`0`; in the `N = 3` scenario with prices `4, 6, 6` and `D = 9`, agent 0
is sole winner with all 9 units at price 4 and agents 1, 2 earn 0, and in
the `N = 2` tie scenario with prices `5, 5`, `D = 10` and costs `2, 3`
the rewards are `15` and `10`. -/
theorem c3_reward_engine :
    (∀ (oc : ClearingOutcome) (c : ℚ) (i : Nat),
        (i ∈ oc.winners → rewardOf oc c i = (oc.clearingPrice - c) * oc.alloc.getD i 0) ∧
        (i ∉ oc.winners → rewardOf oc c i = 0)) ∧
    ((clear [4, 6, 6] 9).winners = [0] ∧
      (clear [4, 6, 6] 9).clearingPrice = 4 ∧
      (clear [4, 6, 6] 9).alloc = [9, 0, 0] ∧
      (∀ c : ℚ, rewardOf (clear [4, 6, 6] 9) c 0 = (4 - c) * 9) ∧
      (∀ c : ℚ, rewardOf (clear [4, 6, 6] 9) c 1 = 0) ∧
      (∀ c : ℚ, rewardOf (clear [4, 6, 6] 9) c 2 = 0)) ∧
    rewardOf (clear [5, 5] 10) 2 0 = 15 ∧
    rewardOf (clear [5, 5] 10) 3 1 = 10 := by
  refine ⟨?_, ⟨by decide, by decide,
    by norm_num [clear, winnersOf, listMin, List.range_succ], ?_, ?_, ?_⟩,
    by norm_num [rewardOf, clear, winnersOf, listMin, List.range_succ],
    by norm_num [rewardOf, clear, winnersOf, listMin, List.range_succ]⟩
  · intro oc c i
    constructor
    · intro h
      rw [rewardOf, if_pos h]
    · intro h
      rw [rewardOf, if_neg h]
  · intro c
    rw [rewardOf, if_pos (by decide : (0 : Nat) ∈ (clear [4, 6, 6] 9).winners),
      (by decide : (clear [4, 6, 6] 9).clearingPrice = 4),
      (by norm_num [clear, winnersOf, listMin, List.range_succ] :
        (clear [4, 6, 6] 9).alloc.getD 0 0 = 9)]
  · intro c
    rw [rewardOf, if_neg (by decide : ¬ (1 : Nat) ∈ (clear [4, 6, 6] 9).winners)]
  · intro c
    rw [rewardOf, if_neg (by decide : ¬ (2 : Nat) ∈ (clear [4, 6, 6] 9).winners)]

theorem c3_witness :
    (0 : Nat) ∈ (clear [5, 5] 10).winners ∧
    rewardOf (clear [5, 5] 10) 2 0
      = ((clear [5, 5] 10).clearingPrice - 2) * (clear [5, 5] 10).alloc.getD 0 0 :=
  ⟨by decide, (c3_reward_engine.1 (clear [5, 5] 10) 2 0).1 (by decide)⟩

/-- C7: under the `clip` policy, a numeric action inside the bounds
(including exactly at either bound) is returned unmodified, one below
`p_min` is mapped to `p_min`, one above `p_max` to `p_max`, and every
numeric action yields an `ok` price within the bounds — never an error. -/
theorem c7_clip_policy (agent : Nat) (lo hi q : ℚ) (hb : lo ≤ hi) :
    (lo ≤ q → q ≤ hi → validate agent lo hi (.num q) = .ok q) ∧
    (q < lo → validate agent lo hi (.num q) = .ok lo) ∧
    (hi < q → validate agent lo hi (.num q) = .ok hi) ∧
    (∃ p, validate agent lo hi (.num q) = .ok p ∧ lo ≤ p ∧ p ≤ hi) := by
  have hv : validate agent lo hi (.num q) = .ok (max lo (min q hi)) := rfl
  refine ⟨?_, ?_, ?_, ?_⟩
  · intro h1 h2
    rw [hv, min_eq_left h2, max_eq_right h1]
  · intro h
    rw [hv, min_eq_left (le_trans (le_of_lt h) hb), max_eq_left (le_of_lt h)]
  · intro h
    rw [hv, min_eq_right (le_of_lt h), max_eq_right hb]
  · exact ⟨max lo (min q hi), hv, le_max_left _ _, max_le hb (min_le_right _ _)⟩

theorem c7_witness :
    (1 : ℚ) ≤ 10 ∧
    validate 0 1 10 (.num 1) = .ok 1 ∧
    validate 0 1 10 (.num 10) = .ok 10 ∧
    validate 0 1 10 (.num 0) = .ok 1 ∧
    validate 0 1 10 (.num 11) = .ok 10 :=
  ⟨by decide,
   (c7_clip_policy 0 1 10 1 (by decide)).1 (by decide) (by decide),
   (c7_clip_policy 0 1 10 10 (by decide)).1 (by decide) (by decide),
   (c7_clip_policy 0 1 10 0 (by decide)).2.1 (by decide),
   (c7_clip_policy 0 1 10 11 (by decide)).2.2.1 (by decide)⟩

/-- C10: executing `src/setup.py` evaluates `open('README.md').read()`
while building the `setup(...)` argument list; in a working directory
with no `README.md`, execution fails with a file-not-found error and
`setup` is never called, while with a `README.md` present its contents
become `long_description`. -/
theorem c10_setup_requires_readme (files : List (String × String)) :
    (files.lookup "README.md" = none →
        runSetupPy files = .fileNotFoundError "README.md" ∧
        ∀ args, runSetupPy files ≠ .completed args) ∧
    (∀ contents, files.lookup "README.md" = some contents →
        runSetupPy files
          = .completed { name := "mpmg", version := "0.1.0", longDescription := contents }) := by
  constructor
  · intro h
    have hr : runSetupPy files = .fileNotFoundError "README.md" := by
      unfold runSetupPy
      rw [h]
    exact ⟨hr, fun args hc => by rw [hr] at hc; cases hc⟩
  · intro contents h
    unfold runSetupPy
    rw [h]

theorem c10_witness :
    ([] : List (String × String)).lookup "README.md" = none ∧
    runSetupPy [] = .fileNotFoundError "README.md" :=
  ⟨rfl, ((c10_setup_requires_readme []).1 rfl).1⟩

theorem validateAll_ok (cfg : Config) (acts : Nat → Option RawAction) :
    ∀ l : List Nat, (∀ i, i ∈ l → ∃ q : ℚ, acts i = some (.num q)) →
      ∃ ps, validateAll cfg acts l = .ok ps := by
  intro l
  induction l with
  | nil => intro _; exact ⟨[], rfl⟩
  | cons a l ih =>
    intro h
    obtain ⟨q, hq⟩ := h a (List.mem_cons_self a l)
    obtain ⟨ps, hps⟩ := ih (fun i hi => h i (List.mem_cons_of_mem a hi))
    refine ⟨max cfg.pmin (min q cfg.pmax) :: ps, ?_⟩
    simp only [validateAll, hq, validate, hps]

theorem step_invalid_phase (env : Env) (acts : Nat → Option RawAction)
    (h : ¬(env.phase = .ready ∨ env.phase = .running)) :
    env.step acts = (.error .invalidEpisodeState, env) := by
  unfold Env.step
  rw [if_neg h]

theorem step_ok_spec (env : Env) (acts : Nat → Option RawAction) (r : StepResult)
    (env' : Env) (h : env.step acts = (.ok r, env')) :
    (env.phase = .ready ∨ env.phase = .running) ∧
    env'.config = env.config ∧
    env'.rng = rngNext env.rng ∧
    env'.market.t = env.market.t + 1 ∧
    env'.market.history = pushWindow env.config.windowSize env.market.history r.info ∧
    env'.phase = (if env.market.t + 1 = env.config.T then Phase.done else Phase.running) := by
  unfold Env.step at h
  by_cases hp : env.phase = .ready ∨ env.phase = .running
  · rw [if_pos hp] at h
    cases hv : validateAll env.config acts (List.range env.config.N) with
    | error err => rw [hv] at h; simp at h
    | ok ps =>
      rw [hv] at h
      dsimp only at h
      by_cases hd : drawDemand env.config (rngNext env.rng) ≤ 0
      · rw [if_pos hd] at h; simp at h
      · rw [if_neg hd] at h
        unfold Env.commit at h
        injection h with h1 h2
        injection h1 with h1
        subst h2
        subst h1
        exact ⟨hp, rfl, rfl, rfl, rfl, rfl⟩
  · rw [if_neg hp] at h
    simp at h

theorem step_succeeds (env : Env) (acts : Nat → Option RawAction)
    (hp : env.phase = .ready ∨ env.phase = .running)
    (hacts : ∀ i, i < env.config.N → ∃ q : ℚ, acts i = some (.num q))
    (hdem : 0 < drawDemand env.config (rngNext env.rng)) :
    ∃ r env', env.step acts = (.ok r, env') := by
  obtain ⟨ps, hps⟩ := validateAll_ok env.config acts (List.range env.config.N)
    (fun i hi => hacts i (List.mem_range.mp hi))
  unfold Env.step
  rw [if_pos hp, hps]
  dsimp only
  rw [if_neg (not_le.mpr hdem)]
  exact ⟨_, _, rfl⟩

theorem stepsOk_reaches (cfg : Config) (acts : Nat → Option RawAction)
    (hacts : ∀ i, i < cfg.N → ∃ q : ℚ, acts i = some (.num q))
    (hdem : ∀ s, 0 < drawDemand cfg s) :
    ∀ (j : Nat) (env : Env), env.config = cfg →
      (env.phase = .ready ∨ env.phase = .running) →
      env.market.t + j ≤ cfg.T →
      ∃ env', stepsOk acts j env = some env' ∧ env'.config = cfg ∧
        env'.market.t = env.market.t + j ∧
        (1 ≤ j →
          env'.phase = (if env.market.t + j = cfg.T then Phase.done else Phase.running)) ∧
        (j = 0 → env' = env) := by
  intro j
  induction j with
  | zero =>
    intro env hc hp ht
    exact ⟨env, rfl, hc, rfl, fun h0 => absurd h0 (by omega), fun _ => rfl⟩
  | succ j ih =>
    intro env hc hp ht
    obtain ⟨r, env1, hstep⟩ := step_succeeds env acts hp
      (by rw [hc]; exact hacts) (by rw [hc]; exact hdem _)
    obtain ⟨-, hcfg1, -, ht1, -, hph1⟩ := step_ok_spec env acts r env1 hstep
    rw [hc] at hph1
    by_cases hj : j = 0
    · subst hj
      refine ⟨env1, ?_, hcfg1.trans hc, by omega, fun _ => by simpa using hph1,
        fun h0 => absurd h0 (by omega)⟩
      simp only [stepsOk, hstep]
    · have hlt : env.market.t + 1 < cfg.T := by omega
      have hrun : env1.phase = .running := by
        rw [hph1, if_neg (by omega)]
      obtain ⟨env2, hsteps2, hcfg2, ht2, hph2, -⟩ :=
        ih env1 (hcfg1.trans hc) (Or.inr hrun) (by omega)
      refine ⟨env2, ?_, hcfg2, by omega, fun _ => ?_, fun h0 => absurd h0 (by omega)⟩
      · simp only [stepsOk, hstep]
        exact hsteps2
      · rw [hph2 (by omega), ht1]
        by_cases hend : env.market.t + 1 + j = cfg.T
        · rw [if_pos hend, if_pos (by omega)]
        · rw [if_neg hend, if_neg (by omega)]

/-- A small concrete configuration used to instantiate the environment
theorems: two agents with costs 2 and 3, horizon 2, window 1, prices in
`[1, 10]`, fixed positive demand 5. -/
def cfgW : Config :=
  { N := 2, T := 2, windowSize := 1, pmin := 1, pmax := 10,
    costs := [2, 3], demandBase := 5, demandSpread := 0 }

/-- A complete, numeric action mapping for two agents. -/
def actsW : Nat → Option RawAction :=
  fun i => if i < 2 then some (.num 3) else none

/-- A concrete round record, used to instantiate the history lemmas. -/
def recW : RoundRecord :=
  { prices := [3, 3], alloc := [5, 5], demand := 10, clearingPrice := 3 }

theorem actsW_complete : ∀ i, i < cfgW.N → ∃ q : ℚ, actsW i = some (.num q) := by
  intro i hi
  have hi2 : i < 2 := hi
  refine ⟨3, ?_⟩
  unfold actsW
  rw [if_pos hi2]

theorem cfgW_demand_pos : ∀ s, 0 < drawDemand cfgW s := by
  intro s
  unfold drawDemand cfgW
  simp [Nat.mod_one]

/-- C4: two independent runs of the environment from the same seed, the
same configuration and the same action sequence produce identical outputs
(initial observations and the per-step observation/reward/outcome
results). -/
theorem c4_two_run_determinism (cfg : Config) (seed : Nat)
    (actSeq : List (Nat → Option RawAction))
    (out₁ out₂ : List Observation × List (Except StepError StepResult))
    (h₁ : out₁ = run cfg seed actSeq) (h₂ : out₂ = run cfg seed actSeq) :
    out₁ = out₂ := h₁.trans h₂.symm

theorem c4_witness : run cfgW 0 [actsW] = run cfgW 0 [actsW] :=
  c4_two_run_determinism cfgW 0 [actsW] (run cfgW 0 [actsW]) (run cfgW 0 [actsW]) rfl rfl

/-- C6: whenever a `step` call reports any fatal error, the returned
environment is exactly the pre-call environment — history, round counter
and episode phase included — so no partial round is ever committed. -/
theorem c6_step_atomic (env : Env) (acts : Nat → Option RawAction) (e : StepError)
    (h : (env.step acts).1 = .error e) : (env.step acts).2 = env := by
  unfold Env.step at h ⊢
  by_cases hp : env.phase = .ready ∨ env.phase = .running
  · rw [if_pos hp] at h ⊢
    cases hv : validateAll env.config acts (List.range env.config.N) with
    | error err => rfl
    | ok ps =>
      try rw [hv] at h
      dsimp only at h ⊢
      by_cases hd : drawDemand env.config (rngNext env.rng) ≤ 0
      · rw [if_pos hd]
      · rw [if_neg hd] at h ⊢
        unfold Env.commit at h
        simp at h
  · rw [if_neg hp]

theorem c6_witness :
    ((Env.init cfgW).step actsW).1 = .error .invalidEpisodeState ∧
    ((Env.init cfgW).step actsW).2 = Env.init cfgW := by
  have h1 : ((Env.init cfgW).step actsW).1 = .error .invalidEpisodeState := by
    rw [step_invalid_phase (Env.init cfgW) actsW (by decide)]
  exact ⟨h1, c6_step_atomic (Env.init cfgW) actsW .invalidEpisodeState h1⟩

/-- C8: the rolling history never exceeds `window_size` — `pushWindow`
keeps at most `window_size` records, appending when there is room and
evicting the oldest (front) entry when the window is full — and every
successful `step` preserves the invariant `len(history) <= window_size`
on the new state. -/
theorem c8_window_invariant (w : Nat) (h : List RoundRecord) (o : RoundRecord)
    (env : Env) (acts : Nat → Option RawAction) :
    (pushWindow w h o).length ≤ w ∧
    (h.length < w → pushWindow w h o = h ++ [o]) ∧
    (1 ≤ w → h.length = w → pushWindow w h o = h.drop 1 ++ [o]) ∧
    (∀ r env', env.step acts = (.ok r, env') →
        env'.market.history.length ≤ env'.config.windowSize) := by
  have hlen : ∀ (w' : Nat) (h' : List RoundRecord) (o' : RoundRecord),
      (pushWindow w' h' o').length ≤ w' := by
    intro w' h' o'
    unfold pushWindow
    rw [List.length_drop, List.length_append]
    simp only [List.length_singleton]
    omega
  refine ⟨hlen w h o, ?_, ?_, ?_⟩
  · intro hlt
    unfold pushWindow
    rw [Nat.sub_eq_zero_of_le (by omega), List.drop_zero]
  · intro hw hfull
    unfold pushWindow
    rw [show h.length + 1 - w = 1 by omega]
    rw [List.drop_append_of_le_length (by omega)]
  · intro r env' hstep
    obtain ⟨-, hcfg, -, -, hhist, -⟩ := step_ok_spec env acts r env' hstep
    rw [hhist, hcfg]
    exact hlen _ _ _

theorem c8_witness :
    ([] : List RoundRecord).length < 1 ∧ pushWindow 1 [] recW = [] ++ [recW] :=
  ⟨by decide,
   (c8_window_invariant 1 [] recW (Env.init cfgW) actsW).2.1 (by decide)⟩

/-- C9: calling `reset` twice in a row with the same seed (and the
configuration carried by the environment) returns exactly the same
initial observations as calling it once. -/
theorem c9_reset_idempotent (env : Env) (seed : Nat) :
    ((env.reset seed).1.reset seed).2 = (env.reset seed).2 := rfl

/-- C5: after `reset`, exactly `T` successful `step` calls move the
environment from `READY` to `DONE`: the freshly reset environment is
`READY`, every prefix of fewer than `T` steps leaves it short of `DONE`,
the `T`-th step lands in `DONE`, and stepping from `DONE` — or from the
never-reset `UNINITIALIZED` environment — fails with
`InvalidEpisodeStateError`, so the `(T+1)`-th call after a reset fails. -/
theorem c5_episode_length (cfg : Config) (seed : Nat) (acts : Nat → Option RawAction)
    (hT : 1 ≤ cfg.T)
    (hacts : ∀ i, i < cfg.N → ∃ q : ℚ, acts i = some (.num q))
    (hdem : ∀ s, 0 < drawDemand cfg s) :
    ((Env.init cfg).reset seed).1.phase = Phase.ready ∧
    (∃ envT, stepsOk acts cfg.T ((Env.init cfg).reset seed).1 = some envT ∧
        envT.phase = Phase.done ∧
        (envT.step acts).1 = .error .invalidEpisodeState) ∧
    (∀ k, k < cfg.T →
        ∃ envk, stepsOk acts k ((Env.init cfg).reset seed).1 = some envk ∧
          envk.phase ≠ Phase.done) ∧
    ((Env.init cfg).step acts).1 = .error .invalidEpisodeState := by
  have ht0 : ((Env.init cfg).reset seed).1.market.t = 0 := rfl
  refine ⟨rfl, ?_, ?_, ?_⟩
  · obtain ⟨envT, hsteps, -, -, hph, -⟩ :=
      stepsOk_reaches cfg acts hacts hdem cfg.T ((Env.init cfg).reset seed).1
        rfl (Or.inl rfl) (by rw [ht0]; omega)
    have hdone : envT.phase = Phase.done := by
      rw [hph hT, ht0]
      simp
    have hnp : ¬(envT.phase = .ready ∨ envT.phase = .running) := by
      rintro (hr | hr) <;> rw [hdone] at hr <;> cases hr
    refine ⟨envT, hsteps, hdone, ?_⟩
    rw [step_invalid_phase envT acts hnp]
  · intro k hk
    obtain ⟨envk, hsteps, -, -, hph, hzero⟩ :=
      stepsOk_reaches cfg acts hacts hdem k ((Env.init cfg).reset seed).1
        rfl (Or.inl rfl) (by rw [ht0]; omega)
    refine ⟨envk, hsteps, ?_⟩
    by_cases hk0 : k = 0
    · rw [hzero hk0]
      intro hcon
      cases hcon
    · rw [hph (by omega), ht0, if_neg (by omega)]
      intro hcon
      cases hcon
  · rw [step_invalid_phase (Env.init cfg) acts
      (by rintro (hr | hr) <;> cases hr)]

theorem c5_witness :
    (1 ≤ cfgW.T ∧
      (∀ i, i < cfgW.N → ∃ q : ℚ, actsW i = some (.num q)) ∧
      ∀ s, 0 < drawDemand cfgW s) ∧
    (((Env.init cfgW).reset 0).1.phase = Phase.ready ∧
      (∃ envT, stepsOk actsW cfgW.T ((Env.init cfgW).reset 0).1 = some envT ∧
          envT.phase = Phase.done ∧
          (envT.step actsW).1 = .error .invalidEpisodeState) ∧
      (∀ k, k < cfgW.T →
          ∃ envk, stepsOk actsW k ((Env.init cfgW).reset 0).1 = some envk ∧
            envk.phase ≠ Phase.done) ∧
      ((Env.init cfgW).step actsW).1 = .error .invalidEpisodeState) :=
  ⟨⟨by decide, actsW_complete, cfgW_demand_pos⟩,
   c5_episode_length cfgW 0 actsW (by decide) actsW_complete cfgW_demand_pos⟩

end MPMG
